import Mathlib

/-!
# Verification of the `define` dictionary tool's normalization and rendering core

This file gives a shallow embedding, in Lean 4, of the core data model and
operations of the `define` command-line dictionary application (Go), and proves
properties of that embedding.

Embedding conventions:
* Go slices become `List`s; Go strings become Lean `String`s (or `List Char`
  where character-level scanning is required).
* Go functions that can `panic` (out-of-range indexing, nil dereference) are
  embedded as `Option`-returning functions, `none` marking the panic.
* Mutation through pointers is embedded as explicit state passing.
Each definition carries a comment naming the Go source it was translated from.
-/

namespace Define

/-! ## Canonical data model (package `source`)

Translated from the `source` package: `DictionaryResult`, `DictionaryEntry`,
`Sense`, attribution and thesaurus containers.  Only the fields that the
verified operations touch are modelled; `Sense.Examples` elements are modelled
as the strings that the renderer's `%q` verb receives. -/

/-- Go `source.Sense`: one meaning of a word.  `SubSenses` nests recursively
(the Go struct is recursive the same way). -/
inductive Sense where
  | mk (Definitions : List String) (Examples : List String)
      (Notes : List String) (SubSenses : List Sense)

/-- `Sense.Definitions` field accessor. -/
def Sense.Definitions : Sense → List String
  | .mk ds _ _ _ => ds

/-- `Sense.Examples` field accessor. -/
def Sense.Examples : Sense → List String
  | .mk _ exs _ _ => exs

/-- `Sense.Notes` field accessor. -/
def Sense.Notes : Sense → List String
  | .mk _ _ ns _ => ns

/-- `Sense.SubSenses` field accessor. -/
def Sense.SubSenses : Sense → List Sense
  | .mk _ _ _ subs => subs

/-- Go `source.DictionaryEntry` (with the embedded `source.Entry` flattened in,
as Go embedding does): word, lexical category, pronunciations, senses,
etymologies and thesaurus values. -/
structure DictionaryEntry where
  Word : String
  LexicalCategory : String
  Pronunciations : List String
  Senses : List Sense
  Etymologies : List String
  Synonyms : List String
  Antonyms : List String

/-- Go `source.DictionaryResult`: one language-specific result set. -/
structure DictionaryResult where
  Language : String
  Word : String
  Entries : List DictionaryEntry

/-- A default (zero-value) entry, mirroring Go's zero value. -/
def DictionaryEntry.zero : DictionaryEntry :=
  ⟨"", "", [], [], [], [], []⟩

/-! ## Validation (package `source`, `ValidateDictionaryResults`)

Translated from:
```go
func ValidateDictionaryResults(word string, results []DictionaryResult) error {
    if len(results) < 1 {
        return &EmptyResultError{word}
    }
    return nil
}
```
The only error value this function can produce is `EmptyResultError{word}`;
we embed the error result as `Option SourceError` (`none` = Go `nil`). -/

/-- The `source` package's typed errors (the ones validation can produce). -/
inductive SourceError where
  | emptyResult (Word : String)
deriving DecidableEq

/-- Go `source.ValidateDictionaryResults`. -/
def validateDictionaryResults (word : String) (results : List DictionaryResult) :
    Option SourceError :=
  if results.length < 1 then some (.emptyResult word) else none

/-! ## Pronunciation formatting (package `source`)

Translated from:
```go
func (p Pronunciation) String() string { return fmt.Sprintf("/%s/", string(p)) }

func (p Pronunciations) String() string {
    var pronunciationText string
    if len(p) > 0 { pronunciationText = p[0].String() }
    if len(p) > 1 {
        var pronunciationStrings []string
        for _, pronunciation := range p {
            pronunciationStrings = append(pronunciationStrings, pronunciation.String())
        }
        pronunciationText = fmt.Sprintf("%s (%s)", pronunciationText,
            strings.Join(pronunciationStrings[1:], " "))
    }
    return pronunciationText
}
```
-/

/-- Go `source.Pronunciation.String`: wrap in slashes. -/
def pronunciationString (p : String) : String :=
  "/" ++ p ++ "/"

/-- Go `source.Pronunciations.String`. -/
def pronunciationsString (p : List String) : String :=
  let t1 := if p.length > 0 then pronunciationString p[0]! else ""
  if p.length > 1 then
    t1 ++ " (" ++ String.intercalate " " ((p.map pronunciationString).drop 1) ++ ")"
  else
    t1

/-! ## Primary-result sorting (package `source`)

Translated from:
```go
func (r DictionaryResults) IsSortedForPrimaryResult(word string) bool {
    return len(r) < 1 || r[0].Word == word
}

func (r *DictionaryResults) SortForPrimaryResult(word string) {
    if r.IsSortedForPrimaryResult(word) { return }
    var matchIndex *int
    for i, result := range *r {
        if result.Word == word { matchIndex = &i; break }
    }
    if matchIndex != nil && *matchIndex != 0 {
        i := *matchIndex
        match := (*r)[i]
        *r = append(DictionaryResults{match}, append((*r)[:i], (*r)[i+1:]...)...)
    }
}
```
The `append(DictionaryResults{match}, append((*r)[:i], (*r)[i+1:]...)...)`
reconstruction is the list `match :: (r with index i removed)`, i.e.
`r[i] :: r.eraseIdx i`. -/

/-- Go `source.DictionaryResults.IsSortedForPrimaryResult`. -/
def isSortedForPrimaryResult (word : String) (r : List DictionaryResult) : Bool :=
  r.length < 1 || (match r with | [] => false | x :: _ => x.Word == word)

/-- Go `source.DictionaryResults.SortForPrimaryResult` (the mutated slice is
returned as the function's value). -/
def sortForPrimaryResult (word : String) (r : List DictionaryResult) :
    List DictionaryResult :=
  if isSortedForPrimaryResult word r then r
  else
    match r.findIdx? (fun result => result.Word == word) with
    | some i =>
        if i ≠ 0 then
          match r[i]? with
          | some m => m :: r.eraseIdx i
          | none => r
        else r
    | none => r

/-! ## The text renderer (package `internal/io/printer` with `internal/io`'s
`PanicWriter`)

The `PanicWriter` (internal/io/writer.go) prepends `spaces` space characters to
every single `Write` call (including the lone `"\n"` write that
`WriteStringLine` makes after the content write) and panics when the underlying
writer fails; we model the underlying writer as never failing, and the output
as the list of strings passed to the successive `Write` calls (their
concatenation is the rendered text).  `IndentWrites` runs its body with
`spaces` increased by the configured indent step; `IndentWritesBy n` with
`spaces` increased by `n`. -/

/-- A run of `n` spaces (Go `bytes.Repeat([]byte(" "), spaces)`). -/
def pad (n : Nat) : String :=
  String.mk (List.replicate n ' ')

/-- `PanicWriter.WriteString` at indentation `sp`: one `Write` call. -/
def writeString (sp : Nat) (s : String) : List String :=
  [pad sp ++ s]

/-- `PanicWriter.WriteNewLine` at indentation `sp`. -/
def writeNewLine (sp : Nat) : List String :=
  [pad sp ++ "\n"]

/-- `PanicWriter.WriteStringLine`: the content write followed by the newline
write. -/
def writeStringLine (sp : Nat) (s : String) : List String :=
  writeString sp s ++ writeNewLine sp

/-- `PanicWriter.writeLines`: `n` blank-line writes. -/
def writeLines (sp : Nat) (n : Nat) : List String :=
  (List.range n).flatMap (fun _ => writeNewLine sp)

/-- `PanicWriter.WritePaddedStringLine`: `padding` blank lines, the line, and
`padding` blank lines again. -/
def writePaddedStringLine (sp : Nat) (s : String) (padding : Nat) : List String :=
  writeLines sp padding ++ writeStringLine sp s ++ writeLines sp padding

/-- Model of Go's `fmt.Sprintf("%q", s)` (`strconv.Quote`) restricted to
printable characters: wrap in double quotes, backslash-escaping `"` and `\`.
(The renderer only ever quotes already-cleaned example text.) -/
def goQuote (s : String) : String :=
  "\"" ++ String.mk (s.data.flatMap
    (fun c => if c = '"' ∨ c = '\\' then ['\\', c] else [c])) ++ "\""

/-- printer.go `getPronunciationsText`:
```go
func getPronunciationsText(pronunciations []string) string {
    var pronunciationText string
    if len(pronunciations) > 0 {
        pronunciationText = fmt.Sprintf("/%s/", pronunciations[0])
    }
    if len(pronunciations) > 1 {
        pronunciationText = fmt.Sprintf("%s (/%s/)", pronunciationText,
            strings.Join(pronunciations[1:], "/ /"))
    }
    return pronunciationText
}
```
-/
def getPronunciationsText (pronunciations : List String) : String :=
  let t := if pronunciations.length > 0 then "/" ++ pronunciations[0]! ++ "/" else ""
  if pronunciations.length > 1 then
    t ++ " (/" ++ String.intercalate "/ /" (pronunciations.drop 1) ++ "/)"
  else t

/-- printer.go `getHeader`: reads `result.Entries[0]`, which panics (modelled
as `none`) when `Entries` is empty. -/
def getHeader (result : DictionaryResult) : Option String :=
  match result.Entries with
  | [] => none
  | firstEntry :: _ =>
      some (if firstEntry.Pronunciations.length > 0 then
          firstEntry.Word ++ "  " ++ getPronunciationsText firstEntry.Pronunciations
        else firstEntry.Word)

/-- printer.go `getEntryHeader`:
```go
func getEntryHeader(resultHeader string, lastEntryHeader string, lastWord string,
    entry source.DictionaryEntry) string {
    var header string
    if len(entry.Pronunciations) > 0 {
        header = fmt.Sprintf("%s  %s", entry.Word, getPronunciationsText(entry.Pronunciations))
    } else if entry.Word != lastWord {
        header = entry.Word
    }
    if header == resultHeader || header == lastEntryHeader {
        return ""
    }
    return header
}
```
-/
def getEntryHeader (resultHeader lastEntryHeader lastWord : String)
    (entry : DictionaryEntry) : String :=
  let header :=
    if entry.Pronunciations.length > 0 then
      entry.Word ++ "  " ++ getPronunciationsText entry.Pronunciations
    else if entry.Word ≠ lastWord then entry.Word
    else ""
  if header = resultHeader ∨ header = lastEntryHeader then "" else header

/-- Spec-side description of the *computed* (pre-suppression) entry header,
following the claim's words: the entry's word plus its slash-wrapped
pronunciation when the entry carries pronunciations, just the word when the
entry's word differs from the immediately preceding entry's word, and empty
otherwise.  Compared against the code's `getEntryHeader` in the C4 theorem. -/
def entryHeaderSpec (lastWord : String) (entry : DictionaryEntry) : String :=
  if entry.Pronunciations.length > 0 then
    entry.Word ++ "  " ++ getPronunciationsText entry.Pronunciations
  else if entry.Word ≠ lastWord then entry.Word
  else ""

/-- printer.go `printEtymologies`. -/
def printEtymologies (sp : Nat) (entry : DictionaryEntry) : List String :=
  if 0 < entry.Etymologies.length then
    writePaddedStringLine sp "Origin" 1 ++
      entry.Etymologies.flatMap (fun et => writeStringLine sp et) ++
      writeNewLine sp
  else []

/-- printer.go `printThesaurusValues` (the entry's `Synonyms`/`Antonyms`). -/
def printThesaurusValues (sp : Nat) (entry : DictionaryEntry) : List String :=
  (if 0 < entry.Synonyms.length then
    writePaddedStringLine sp "Synonyms" 1 ++
      writeStringLine sp (String.intercalate " ; " entry.Synonyms) ++
      writeNewLine sp
  else []) ++
  (if 0 < entry.Antonyms.length then
    writePaddedStringLine sp "Antonyms" 1 ++
      writeStringLine sp (String.intercalate " ; " entry.Antonyms) ++
      writeNewLine sp
  else [])

/-- The body of printer.go `printDictionaryEntry`'s `for senseIndex, sense`
loop for one sense at (0-based) index `idx`, writing at indentation `sp`, with
indent step `step`.  The Go loop variable `prefix` starts as `"{idx+1}. "` and
becomes `" - "` once a second definition is written; the examples/notes block
is indented by the final value of `prefix`'s length, and each sub-sense block
is indented one step further, printing at most the first sub-sense example. -/
def printSense (step sp idx : Nat) (sense : Sense) : List String :=
  let pfx0 := toString (idx + 1) ++ ". "
  let defsLines :=
    match sense.Definitions with
    | [] => []
    | d :: rest =>
        writeStringLine sp (pfx0 ++ d) ++
          rest.flatMap (fun d' => writeStringLine sp (" - " ++ d'))
  let pfxAfter :=
    match sense.Definitions with
    | [] => pfx0
    | _ :: rest => if rest.isEmpty then pfx0 else " - "
  defsLines ++
    sense.Examples.flatMap
      (fun ex => writeStringLine (sp + pfxAfter.length) (goQuote ex)) ++
    sense.Notes.flatMap
      (fun n => writeStringLine (sp + pfxAfter.length) ("[" ++ n ++ "]")) ++
    sense.SubSenses.flatMap (fun subSense =>
      subSense.Definitions.flatMap
        (fun d => writeStringLine (sp + step) (" - " ++ d)) ++
      (match subSense.Examples with
       | [] => []
       | ex :: _ => writeStringLine (sp + step + 3) (goQuote ex)))

/-- The `for senseIndex, sense := range entry.Senses` loop. -/
def printSenses (step sp idx : Nat) : List Sense → List String
  | [] => []
  | s :: rest => printSense step sp idx s ++ printSenses step sp (idx + 1) rest

/-- printer.go `printDictionaryEntry`. -/
def printDictionaryEntry (step sp : Nat) (entry : DictionaryEntry) : List String :=
  (if entry.LexicalCategory ≠ "" then
    writePaddedStringLine sp ("(" ++ entry.LexicalCategory ++ ")") 1
  else []) ++
  printSenses step sp 0 entry.Senses ++
  printEtymologies sp entry ++
  printThesaurusValues sp entry

/-- The `for _, entry := range result.Entries` loop of
`PrintDictionaryResults`, threading the `lastEntryHeader` (per result) and
`lastWord` (across results) variables; returns the written output together
with the final values of the two variables. -/
def printEntriesLoop (step sp : Nat) (resultHeader : String) :
    List DictionaryEntry → String → String → (List String × String × String)
  | [], lastEntryHeader, lastWord => ([], lastEntryHeader, lastWord)
  | e :: es, lastEntryHeader, lastWord =>
      let eh := getEntryHeader resultHeader lastEntryHeader lastWord e
      let headerLines :=
        if eh ≠ "" then writeNewLine sp ++ writeNewLine sp ++ writeStringLine sp eh
        else []
      let leh' := if eh ≠ "" then eh else lastEntryHeader
      let rest := printEntriesLoop step sp resultHeader es leh' e.Word
      (headerLines ++ printDictionaryEntry step (sp + step) e ++ rest.1, rest.2)

/-- The `for _, result := range results` loop of `PrintDictionaryResults`;
`none` is the out-of-range panic raised by `getHeader` on a result with no
entries. -/
def printResultsLoop (step sp : Nat) :
    List DictionaryResult → String → Option (List String)
  | [], _ => some []
  | r :: rs, lastWord =>
      match getHeader r with
      | none => none
      | some resultHeader =>
          let inner := printEntriesLoop step sp resultHeader r.Entries "" lastWord
          match printResultsLoop step sp rs inner.2.2 with
          | none => none
          | some rest =>
              some (writePaddedStringLine sp resultHeader 1 ++ inner.1 ++
                writeNewLine sp ++ rest)

/-- printer.go `PrintDictionaryResults`: the whole render runs inside one
`IndentWrites`, so the base indentation is one `step`. -/
def printDictionaryResults (step : Nat) (results : List DictionaryResult) :
    Option (List String) :=
  printResultsLoop step step results ""

/-! ## Plain fold-equality (source/normalize.go)

```go
func RemoveDiacritics(text string) string {
    transformer := transform.Chain(norm.NFD, runes.Remove(runes.In(unicode.Mn)), norm.NFC)
    normalized, _, err := transform.String(transformer, text)
    if err != nil { return text }
    return normalized
}

func EqualFoldPlain(s, t string) bool {
    return strings.EqualFold(RemoveDiacritics(s), RemoveDiacritics(t))
}
```
The `x/text` transforms and `strings.EqualFold` are library code; they are
embedded here restricted to the Basic Latin and Latin-1 repertoire (plus the
fold-orbit companions of those characters): the canonical decomposition table
covers the Latin-1 precomposed letters, `Mn` is the Combining Diacritical
Marks block, and `SimpleFold` covers the fold orbits touching that repertoire,
treating every other character as a fold singleton.  `transform.String` cannot
fail on valid UTF-8 (all Lean `String`s), so the `err` branch is dropped. -/

/-- Canonical decompositions of the precomposed Latin-1 letters:
`(composed, base, combining mark)` code points. -/
def latin1Decomp : List (Nat × Nat × Nat) :=
  [(0xC0, 0x41, 0x300), (0xC1, 0x41, 0x301), (0xC2, 0x41, 0x302),
   (0xC3, 0x41, 0x303), (0xC4, 0x41, 0x308), (0xC5, 0x41, 0x30A),
   (0xC7, 0x43, 0x327), (0xC8, 0x45, 0x300), (0xC9, 0x45, 0x301),
   (0xCA, 0x45, 0x302), (0xCB, 0x45, 0x308), (0xCC, 0x49, 0x300),
   (0xCD, 0x49, 0x301), (0xCE, 0x49, 0x302), (0xCF, 0x49, 0x308),
   (0xD1, 0x4E, 0x303), (0xD2, 0x4F, 0x300), (0xD3, 0x4F, 0x301),
   (0xD4, 0x4F, 0x302), (0xD5, 0x4F, 0x303), (0xD6, 0x4F, 0x308),
   (0xD9, 0x55, 0x300), (0xDA, 0x55, 0x301), (0xDB, 0x55, 0x302),
   (0xDC, 0x55, 0x308), (0xDD, 0x59, 0x301),
   (0xE0, 0x61, 0x300), (0xE1, 0x61, 0x301), (0xE2, 0x61, 0x302),
   (0xE3, 0x61, 0x303), (0xE4, 0x61, 0x308), (0xE5, 0x61, 0x30A),
   (0xE7, 0x63, 0x327), (0xE8, 0x65, 0x300), (0xE9, 0x65, 0x301),
   (0xEA, 0x65, 0x302), (0xEB, 0x65, 0x308), (0xEC, 0x69, 0x300),
   (0xED, 0x69, 0x301), (0xEE, 0x69, 0x302), (0xEF, 0x69, 0x308),
   (0xF1, 0x6E, 0x303), (0xF2, 0x6F, 0x300), (0xF3, 0x6F, 0x301),
   (0xF4, 0x6F, 0x302), (0xF5, 0x6F, 0x303), (0xF6, 0x6F, 0x308),
   (0xF9, 0x75, 0x300), (0xFA, 0x75, 0x301), (0xFB, 0x75, 0x302),
   (0xFC, 0x75, 0x308), (0xFD, 0x79, 0x301), (0xFF, 0x79, 0x308)]

/-- `norm.NFD` on the covered repertoire: decompose each precomposed letter
into its base letter followed by its combining mark. -/
def nfd (l : List Char) : List Char :=
  l.flatMap (fun c =>
    match latin1Decomp.find? (fun t => t.1 = c.toNat) with
    | some t => [Char.ofNat t.2.1, Char.ofNat t.2.2]
    | none => [c])

/-- `runes.Remove(runes.In(unicode.Mn))` on the covered repertoire: drop the
Combining Diacritical Marks block U+0300–U+036F. -/
def removeMn (l : List Char) : List Char :=
  l.filter (fun c => !(0x300 ≤ c.toNat && c.toNat ≤ 0x36F))

/-- `norm.NFC` on the covered repertoire: recompose an adjacent base letter +
combining mark pair back into the precomposed letter. -/
def nfc : List Char → List Char
  | [] => []
  | [c] => [c]
  | a :: b :: rest =>
      match latin1Decomp.find? (fun t => t.2.1 = a.toNat && t.2.2 = b.toNat) with
      | some t => Char.ofNat t.1 :: nfc rest
      | none => a :: nfc (b :: rest)

/-- Go `source.RemoveDiacritics`: NFD, remove nonspacing marks, NFC. -/
def removeDiacritics (s : String) : String :=
  String.mk (nfc (removeMn (nfd s.data)))

/-- `unicode.SimpleFold` restricted to the covered repertoire: for each
character of a case-folding orbit, the next character of the orbit (in code
point order, wrapping around).  The special orbits that touch Basic
Latin/Latin-1 (K/k/KELVIN SIGN, S/s/LONG S, Å/å/ANGSTROM SIGN, µ/Μ/μ,
ß/CAPITAL SHARP S, ÿ/Ÿ) are listed explicitly; the remaining covered letters
form plain upper/lower pairs; everything else is a fold singleton. -/
def simpleFold (c : Char) : Char :=
  let n := c.toNat
  if n = 0x4B then Char.ofNat 0x6B
  else if n = 0x6B then Char.ofNat 0x212A
  else if n = 0x212A then Char.ofNat 0x4B
  else if n = 0x53 then Char.ofNat 0x73
  else if n = 0x73 then Char.ofNat 0x17F
  else if n = 0x17F then Char.ofNat 0x53
  else if n = 0xC5 then Char.ofNat 0xE5
  else if n = 0xE5 then Char.ofNat 0x212B
  else if n = 0x212B then Char.ofNat 0xC5
  else if n = 0xB5 then Char.ofNat 0x39C
  else if n = 0x39C then Char.ofNat 0x3BC
  else if n = 0x3BC then Char.ofNat 0xB5
  else if n = 0xDF then Char.ofNat 0x1E9E
  else if n = 0x1E9E then Char.ofNat 0xDF
  else if n = 0xFF then Char.ofNat 0x178
  else if n = 0x178 then Char.ofNat 0xFF
  else if 0x41 ≤ n && n ≤ 0x5A then Char.ofNat (n + 0x20)
  else if 0x61 ≤ n && n ≤ 0x7A then Char.ofNat (n - 0x20)
  else if 0xC0 ≤ n && n ≤ 0xDE && n ≠ 0xD7 then Char.ofNat (n + 0x20)
  else if 0xE0 ≤ n && n ≤ 0xFE && n ≠ 0xF7 then Char.ofNat (n - 0x20)
  else c

/-- The orbit walk of `strings.EqualFold`'s general case:
`r := SimpleFold(sr); for r != sr && r < tr { r = SimpleFold(r) }`.
The fuel bounds the walk; fold orbits have at most four elements, so fuel 8
never runs out on the covered repertoire. -/
def foldLoop : Nat → Char → Char → Char → Char
  | 0, _, r, _ => r
  | fuel + 1, sr, r, tr =>
      if r ≠ sr ∧ r < tr then foldLoop fuel sr (simpleFold r) tr else r

/-- One rune-pair comparison of `strings.EqualFold` (the byte-level ASCII fast
path coincides with this at rune granularity). -/
def equalFoldChar (a b : Char) : Bool :=
  if a = b then true
  else
    let sr := if b < a then b else a
    let tr := if b < a then a else b
    if tr.toNat < 0x80 then
      decide ('A' ≤ sr ∧ sr ≤ 'Z') && decide (tr.toNat = sr.toNat + 0x20)
    else
      foldLoop 8 sr (simpleFold sr) tr = tr

/-- Go `strings.EqualFold` on rune sequences: rune-wise simple-fold equality,
false when the lengths differ. -/
def equalFold : List Char → List Char → Bool
  | [], [] => true
  | [], _ :: _ => false
  | _ :: _, [] => false
  | a :: as, b :: bs => equalFoldChar a b && equalFold as bs

/-- Go `strings.EqualFold` on strings. -/
def goEqualFold (s t : String) : Bool :=
  equalFold s.data t.data

/-- Go `source.EqualFoldPlain`. -/
def equalFoldPlain (s t : String) : Bool :=
  goEqualFold (removeDiacritics s) (removeDiacritics t)

/-! ## The Oxford normalizer (package `source/oxford`, `apidata.go`)

Translated from `apiLexicalEntry.toEntry` and `apiSense.toSense`.  Only the
payload fields those functions read are modelled; an `apiComplexExample` and
an `apiTypedIDText` are represented by the `Text` string the conversion
extracts (`toAttributedText` produces an attributed text whose only populated
field is `Text`, and `toSense` keeps only `note.Text`). -/

/-- Oxford `apiPronunciation` (the two fields `toEntry` reads). -/
structure OxPronunciation where
  PhoneticNotation : String
  PhoneticSpelling : String

/-- Oxford `apiSense` (the fields `toSense`/`toEntry` read); `Subsenses`
nests recursively, as in the API schema. -/
inductive OxApiSense where
  | mk (Definitions : List String) (ExampleTexts : List String)
      (NoteTexts : List String) (Subsenses : List OxApiSense)

/-- `OxApiSense.Definitions` accessor. -/
def OxApiSense.Definitions : OxApiSense → List String
  | .mk ds _ _ _ => ds

/-- `OxApiSense.ExampleTexts` accessor. -/
def OxApiSense.ExampleTexts : OxApiSense → List String
  | .mk _ exs _ _ => exs

/-- `OxApiSense.NoteTexts` accessor. -/
def OxApiSense.NoteTexts : OxApiSense → List String
  | .mk _ _ ns _ => ns

/-- `OxApiSense.Subsenses` accessor. -/
def OxApiSense.Subsenses : OxApiSense → List OxApiSense
  | .mk _ _ _ subs => subs

/-- One element of Oxford `apiLexicalEntry.Entries` (the fields `toEntry`
reads). -/
structure OxSubEntry where
  Etymologies : List String
  Pronunciations : List OxPronunciation
  Senses : List OxApiSense

/-- Oxford `apiLexicalEntry` (the fields `toEntry` reads; `LexicalCategoryText`
is the `LexicalCategory.Text` field). -/
structure OxLexicalEntry where
  Text : String
  LexicalCategoryText : String
  Pronunciations : List OxPronunciation
  Entries : List OxSubEntry

/-- The pronunciation filter of `toEntry`: keep the phonetic spellings whose
notation is IPA (`strings.EqualFold(phoneticNotationIPAIdentifier, ...)`,
with `phoneticNotationIPAIdentifier = "IPA"`). -/
def oxIPAPronunciations (ps : List OxPronunciation) : List String :=
  (ps.filter (fun p => goEqualFold "IPA" p.PhoneticNotation)).map
    (fun p => p.PhoneticSpelling)

/-- Oxford `apiSense.toSense`: keeps the sense's definitions, example texts
and note texts; it does *not* convert the sense's own `Subsenses` (the
produced `Sense` has empty `SubSenses`). -/
def oxToSense (s : OxApiSense) : Sense :=
  Sense.mk s.Definitions s.ExampleTexts s.NoteTexts []

/-- Oxford `apiLexicalEntry.toEntry`: word and category from the lexical
entry, IPA pronunciations from the lexical entry then from each sub-entry,
etymologies from each sub-entry, and for each source sense a top-level
`Sense` via `toSense` whose `SubSenses` are the `toSense` images of the
source sense's direct subsenses only (`// Only go one level deep of
sub-senses`). -/
def oxToEntry (e : OxLexicalEntry) : DictionaryEntry :=
  { Word := e.Text
    LexicalCategory := e.LexicalCategoryText
    Pronunciations := oxIPAPronunciations e.Pronunciations ++
      e.Entries.flatMap (fun sub => oxIPAPronunciations sub.Pronunciations)
    Senses := e.Entries.flatMap (fun sub => sub.Senses.map (fun s =>
      Sense.mk s.Definitions s.ExampleTexts s.NoteTexts
        (s.Subsenses.map oxToSense)))
    Etymologies := e.Entries.flatMap (fun sub => sub.Etymologies)
    Synonyms := []
    Antonyms := [] }

/-! ## The Webster XML sense loop (source/webster/webster.go,
`apiDefinitionContainer.UnmarshalXML`)

The custom unmarshaller re-decodes the container's raw XML and walks its
top-level child elements, reacting to three element kinds: `<sn>` (sense
position), `<sd>` (sense divider) and `<dt>` (defining text).  We embed the
walked elements as a token list (each token carrying the already-decoded
content the loop reads from it) and the loop body as a state transition;
`none` marks the places where the Go code panics (indexing
`Definitions[-1]`, dereferencing a nil `currentSense`, or indexing
`senses[senseIndex]` past the end). -/

/-- Webster `apiSense` (the fields the loop writes); `Subsenses` nests
recursively, as the Go struct does. -/
inductive WApiSense where
  | mk (Definitions : List String) (Examples : List String)
      (Notes : List String) (Subsenses : List WApiSense)

/-- `WApiSense.Definitions` accessor. -/
def WApiSense.Definitions : WApiSense → List String
  | .mk ds _ _ _ => ds

/-- `WApiSense.Subsenses` accessor. -/
def WApiSense.Subsenses : WApiSense → List WApiSense
  | .mk _ _ _ subs => subs

/-- Replace a Webster sense's `Subsenses` field. -/
def WApiSense.withSubsenses (subs : List WApiSense) : WApiSense → WApiSense
  | .mk ds exs ns _ => .mk ds exs ns subs

/-- The decoded XML child elements the loop dispatches on: `<sn>` with its
position text, `<sd>` with its cleaned divider text, and `<dt>` with its
formatted defining text, example texts and usage-note texts. -/
inductive WebTok where
  | sense (position : String)
  | divider (cleaned : String)
  | defText (formatted : String) (exampleTexts : List String)
      (noteTexts : List String)

/-- Which list the Go `currentSense` pointer points into (always at that
list's last element, the most recently created sense). -/
inductive WLoc where
  | inSenses
  | inSubsenses
deriving DecidableEq

/-- The loop's mutable state: the `senses` and `subsenses` pointer slices
(as value lists), `senseIndex`, the `currentSense` pointer, and the
`isDefinitionContinuation` flag. -/
structure WState where
  senses : List WApiSense
  subsenses : List WApiSense
  senseIndex : Nat
  current : Option WLoc
  isDefCont : Bool

/-- The list `current` points into. -/
def WState.currentList (st : WState) (loc : WLoc) : List WApiSense :=
  match loc with
  | .inSenses => st.senses
  | .inSubsenses => st.subsenses

/-- Replace the list `current` points into. -/
def wSetCurrentList (st : WState) (loc : WLoc) (l : List WApiSense) : WState :=
  match loc with
  | .inSenses => { st with senses := l }
  | .inSubsenses => { st with subsenses := l }

/-- Go `strconv.Atoi` success on a sense position: an optional sign followed
by one or more digits (overflow, irrelevant for sense numbers, is ignored). -/
def atoiOk (s : String) : Bool :=
  match s.data with
  | [] => false
  | c :: rest =>
      if c = '+' || c = '-' then !rest.isEmpty && rest.all (fun d => d.isDigit)
      else (c :: rest).all (fun d => d.isDigit)

/-- Mutation through the `currentSense` pointer: update the last element of
the list it points into; `none` when the pointed-at update itself panics. -/
def wModifyCurrent (st : WState) (loc : WLoc)
    (f : WApiSense → Option WApiSense) : Option WState :=
  match (st.currentList loc).getLast? with
  | none => none
  | some last =>
      match f last with
      | none => none
      | some last' =>
          some (wSetCurrentList st loc ((st.currentList loc).dropLast ++ [last']))

/-- `currentSense.Definitions[len-1] += sep + txt`: appending to the last
definition string panics (`none`) when there is no definition yet
(`lastDefinitionIndex` is `-1`). -/
def defsAppendLast (sep txt : String) : WApiSense → Option WApiSense
  | .mk ds exs ns subs =>
      match ds.getLast? with
      | none => none
      | some d => some (.mk (ds.dropLast ++ [d ++ sep ++ txt]) exs ns subs)

/-- One iteration of the `for token, err := subDecoder.Token()` loop:

* `<sn>` with a numeric position starts a new top-level sense: if subsenses
  were collected, they become the `Subsenses` of `senses[senseIndex]`
  (panicking when `senses` is empty) and the collection resets; then
  `senseIndex` advances (when `senses` is non-empty) and a fresh sense is
  appended to `senses` and becomes current.  A non-numeric position appends a
  fresh sense to `subsenses` and makes it current.
* `<sd>` appends `"; " + text` to the current sense's last definition and
  sets `isDefinitionContinuation` (nil `currentSense` panics).
* `<dt>`: when `senses` is empty or there is no current sense, a fresh sense
  is appended to `senses` and becomes current; then, unless a continuation is
  pending, the formatted text is appended as a **new** definition and the
  sense's examples/notes are overwritten; when a continuation is pending, the
  text is appended to the **last** definition with a `" "` separator and the
  flag resets. -/
def wStep (st : WState) (tok : WebTok) : Option WState :=
  match tok with
  | .sense pos =>
      if atoiOk pos then
        match (if st.subsenses.isEmpty then some st
          else if h : st.senseIndex < st.senses.length then
            some { st with
              senses := st.senses.set st.senseIndex
                ((st.senses.get ⟨st.senseIndex, h⟩).withSubsenses st.subsenses)
              subsenses := [] }
          else none) with
        | none => none
        | some st1 =>
            some { st1 with
              senses := st1.senses ++ [.mk [] [] [] []]
              senseIndex :=
                if st1.senses.length > 0 then st1.senseIndex + 1 else st1.senseIndex
              current := some .inSenses }
      else
        some { st with
          subsenses := st.subsenses ++ [.mk [] [] [] []]
          current := some .inSubsenses }
  | .divider s =>
      match st.current with
      | none => none
      | some loc =>
          match wModifyCurrent st loc (defsAppendLast "; " s) with
          | none => none
          | some st' => some { st' with isDefCont := true }
  | .defText f exs ns =>
      let st0 :=
        if st.senses.length = 0 || st.current.isNone then
          { st with senses := st.senses ++ [.mk [] [] [] []]
                    current := some .inSenses }
        else st
      match st0.current with
      | none => none
      | some loc =>
          if !st0.isDefCont then
            match wModifyCurrent st0 loc (fun sense =>
              match sense with
              | .mk ds _ _ subs => some (.mk (ds ++ [f]) exs ns subs)) with
            | none => none
            | some st' => some st'
          else
            match wModifyCurrent st0 loc (defsAppendLast " " f) with
            | none => none
            | some st' => some { st' with isDefCont := false }

/-- The whole loop, from the zero-valued initial state. -/
def wRun (toks : List WebTok) : Option WState :=
  toks.foldlM wStep ⟨[], [], 0, none, false⟩

/-! ## Webster token cleanup (source/webster/apidata.go)

```go
regexpWebsterTokens = regexp.MustCompile(`{.*?(?:\|(.*?)(?:\|.*?\|?)?)?}`)

func cleanTextOfTokens(text string) string {
    return regexpWebsterTokens.ReplaceAllString(text, "$1")
}
```
`ReplaceAllString` rewrites the successive non-overlapping leftmost matches.
Every match of this pattern starts at a literal `{`; because the quantified
sub-expressions are all `.*?` (any characters except newline, lazily), an
attempt started at a `{` succeeds exactly when a `}` occurs later with no
intervening newline, and the backtracking order makes the match end at the
*first* such `}`.  Inside the match, the group `(.*?)` participates exactly
when a `|` occurs before the closing `}` (the lazy head `.*?` stops at the
first `|`, since the optional group is tried before extending it), and the
group then captures up to the following `|` if any, else up to the `}`; when
no `|` occurs the group is unset and `$1` is empty.  The scanner below is
that compiled behavior. -/

/-- The replacement text `$1` for one matched token body (the characters
between the `{` and its closing `}`): the text between the first and second
`|` (or up to the end when there is no second `|`); empty when the body has
no `|` at all. -/
def tokenRepl (inner : List Char) : List Char :=
  let after := inner.dropWhile (fun c => c != '|')
  if after.isEmpty then [] else after.tail.takeWhile (fun c => c != '|')

/-- Find the closing `}` of a match attempt started just before `l`: splits
`l` at the first `}` provided no newline precedes it (`.` does not match a
newline, so a newline kills the attempt). -/
def splitAtClose (l : List Char) : Option (List Char × List Char) :=
  match l.dropWhile (fun c => c != '}' && c != '\n') with
  | [] => none
  | c :: rest =>
      if c = '}' then some (l.takeWhile (fun c => c != '}' && c != '\n'), rest)
      else none

/-- The remainder returned by `splitAtClose` is strictly shorter than the
input. -/
theorem splitAtClose_some_length {l : List Char} {pr : List Char × List Char}
    (h : splitAtClose l = some pr) : pr.2.length < l.length := by
  unfold splitAtClose at h
  split at h
  · exact absurd h (by simp)
  · rename_i c rest hd
    split at h
    · cases h
      have hsub : (c :: rest).length ≤ l.length := by
        rw [← hd]
        exact (List.dropWhile_sublist _).length_le
      exact Nat.lt_of_lt_of_le (Nat.lt_succ_self _) hsub
    · exact absurd h (by simp)

/-- Go `cleanTextOfTokens`'s regex replacement, compiled to a scanner: pass
non-`{` characters through; at a `{`, if a closing `}` follows on the same
line, emit the token's `$1` replacement and continue after the `}`, else pass
the `{` through. -/
def clean (l : List Char) : List Char :=
  match l with
  | [] => []
  | c :: rest =>
      if c = '{' then
        match h : splitAtClose rest with
        | some pr => tokenRepl pr.1 ++ clean pr.2
        | none => c :: clean rest
      else c :: clean rest
termination_by l.length
decreasing_by
  · exact Nat.lt_succ_of_lt (splitAtClose_some_length h)
  · exact Nat.lt_succ_self _
  · exact Nat.lt_succ_self _

/-- Go `webster.cleanTextOfTokens`. -/
def cleanTextOfTokens (s : String) : String :=
  String.mk (clean s.data)

end Define

/-! # Theorems -/

namespace Define

/-- **C1 (counterexample).** The claim says validation returns an EmptyResult
error whenever the results list *contains* a result with zero entries.  It does
not: for the word `"test"` and the one-element list whose single
`DictionaryResult` has an empty `Entries` sequence, `ValidateDictionaryResults`
returns `nil` (no error). -/
theorem validate_accepts_result_with_no_entries :
    validateDictionaryResults "test" [⟨"en", "test", []⟩] = none := by
  rfl

/-- **C1 (amended).** `ValidateDictionaryResults(word, results)` returns an
error exactly when the results *list itself* has zero length, and that error is
`EmptyResultError{Word: word}`; the `Entries` of the individual results are
never inspected. -/
theorem validateDictionaryResults_spec (word : String)
    (results : List DictionaryResult) :
    (validateDictionaryResults word results = none ↔ results ≠ []) ∧
      validateDictionaryResults word [] = some (.emptyResult word) := by
  constructor
  · unfold validateDictionaryResults
    cases results <;> simp
  · rfl

/-- **C3.** Pronunciation-list formatting: the empty list yields `""`; a
one-item list yields the item slash-wrapped; for two or more items the first is
slash-wrapped alone and the remaining items are each slash-wrapped, joined with
spaces, and parenthesized (so length 3 gives `/a/ (/b/ /c/)`); and a single
pronunciation is always slash-wrapped, so the empty pronunciation yields `//`. -/
theorem pronunciationsString_spec :
    pronunciationsString [] = "" ∧
      (∀ x : String, pronunciationsString [x] = "/" ++ x ++ "/") ∧
      (∀ (a b : String) (rest : List String),
        pronunciationsString (a :: b :: rest) =
          "/" ++ a ++ "/ (" ++
            String.intercalate " " ((b :: rest).map (fun p => "/" ++ p ++ "/")) ++ ")") ∧
      pronunciationString "" = "//" ∧
      pronunciationsString ["a", "b", "c"] = "/a/ (/b/ /c/)" := by
  refine ⟨rfl, fun x => rfl, fun a b rest => ?_, rfl, rfl⟩
  have h1 : (a :: b :: rest).length > 1 := by simp
  have h0 : (a :: b :: rest).length > 0 := by simp
  simp only [pronunciationsString, if_pos h1, if_pos h0]
  simp only [List.getElem!_cons_zero, List.map_cons, List.drop_succ_cons,
    List.drop_zero, pronunciationString, String.append_assoc]
  rfl

/-! ### Sorting for the primary result (claim C2) -/

/-- Helper: `findIdx?` over a list whose first satisfying element sits after a
non-satisfying block finds exactly that element's index. -/
theorem findIdx?_first_match {α : Type} (p : α → Bool) (pre post : List α) (m : α)
    (h : ∀ x ∈ pre, p x = false) (hm : p m = true) :
    (pre ++ m :: post).findIdx? p = some pre.length := by
  induction pre with
  | nil => simp [hm]
  | cons x xs ih =>
    have hx : p x = false := h x (List.mem_cons_self x xs)
    simp only [List.cons_append, List.findIdx?_cons, hx, Bool.false_eq_true,
      if_false, List.findIdx?_start_succ]
    rw [ih (fun y hy => h y (List.mem_cons_of_mem x hy))]
    simp

/-- **C2.** Characterization of the primary-result ordering operations:
`IsSortedForPrimaryResult(w, R)` is true exactly when `R` is empty or the
`Word` of its first element equals `w` by exact string comparison;
`SortForPrimaryResult(w, R)` leaves `R` unchanged when it is already sorted or
when no element's `Word` equals `w`, and otherwise moves the first element
whose `Word` equals `w` to the front, keeping every other element in its
original relative order (so at most one element moves). -/
theorem sortForPrimaryResult_spec :
    (∀ (w : String) (r : List DictionaryResult),
      isSortedForPrimaryResult w r = true ↔
        r = [] ∨ ∃ x xs, r = x :: xs ∧ x.Word = w) ∧
    (∀ (w : String) (r : List DictionaryResult),
      isSortedForPrimaryResult w r = true → sortForPrimaryResult w r = r) ∧
    (∀ (w : String) (r : List DictionaryResult),
      (∀ x ∈ r, x.Word ≠ w) → sortForPrimaryResult w r = r) ∧
    (∀ (w : String) (pre post : List DictionaryResult) (m : DictionaryResult),
      (∀ x ∈ pre, x.Word ≠ w) → m.Word = w →
      isSortedForPrimaryResult w (pre ++ m :: post) = false →
      sortForPrimaryResult w (pre ++ m :: post) = m :: (pre ++ post)) := by
  refine ⟨?_, ?_, ?_, ?_⟩
  · intro w r
    cases r with
    | nil => simp [isSortedForPrimaryResult]
    | cons x xs =>
      simp only [isSortedForPrimaryResult, List.length_cons]
      constructor
      · intro h
        right
        refine ⟨x, xs, rfl, ?_⟩
        simpa using h
      · rintro (h | ⟨y, ys, hEq, hw⟩)
        · exact absurd h (List.cons_ne_nil x xs)
        · cases hEq
          simp [hw]
  · intro w r h
    simp [sortForPrimaryResult, h]
  · intro w r h
    unfold sortForPrimaryResult
    by_cases hs : isSortedForPrimaryResult w r = true
    · simp [hs]
    · have hnone : r.findIdx? (fun result => result.Word == w) = none := by
        rw [List.findIdx?_eq_none_iff]
        intro x hx
        simpa using h x hx
      simp [hs, hnone]
  · intro w pre post m hpre hm hns
    have hfind : (pre ++ m :: post).findIdx? (fun result => result.Word == w) =
        some pre.length := by
      apply findIdx?_first_match
      · intro x hx
        simpa using hpre x hx
      · simpa using hm
    have hpreNe : pre ≠ [] := by
      intro hEq
      subst hEq
      simp [isSortedForPrimaryResult, hm] at hns
    have hlen : pre.length ≠ 0 := fun hz => hpreNe (List.length_eq_zero.mp hz)
    have hget : (pre ++ m :: post)[pre.length]? = some m := by
      rw [List.getElem?_append_right (Nat.le_refl _)]
      simp
    have herase : (pre ++ m :: post).eraseIdx pre.length = pre ++ post := by
      rw [List.eraseIdx_append_of_length_le (Nat.le_refl _)]
      simp
    simp [sortForPrimaryResult, hns, hfind, hlen, hget, herase]

/-- **C2 (witness).** The spec's concrete example: sorting
`[{nah},{nope},{test},{defnot}]` for the word `"test"` moves only the matching
element to the front and keeps the relative order of the others. -/
theorem sortForPrimaryResult_spec_witness :
    sortForPrimaryResult "test"
        [⟨"en", "nah", []⟩, ⟨"en", "nope", []⟩, ⟨"en", "test", []⟩,
          ⟨"en", "defnot", []⟩] =
      [⟨"en", "test", []⟩, ⟨"en", "nah", []⟩, ⟨"en", "nope", []⟩,
        ⟨"en", "defnot", []⟩] := by
  have h := sortForPrimaryResult_spec.2.2.2 "test"
    [⟨"en", "nah", []⟩, ⟨"en", "nope", []⟩] [⟨"en", "defnot", []⟩]
    ⟨"en", "test", []⟩
    (by intro x hx; fin_cases hx <;> simp) (by simp) (by rfl)
  simpa using h

/-! ### Renderer theorems (claims C4, C5, C10) -/

/-- **C4.** The entry header: the computed header is the entry's word plus its
slash-wrapped pronunciation text when the entry carries pronunciations, or
just the word when the word differs from the immediately preceding entry's
word (else empty); `getEntryHeader` suppresses it (returns `""`) exactly when
it coincides with the result header or the previous printed entry header; and
in the entry loop, a second consecutive entry whose computed header is
identical to the header just printed for the first entry has its header
suppressed, so the header is printed only once. -/
theorem getEntryHeader_spec :
    (∀ (rh leh lw : String) (e : DictionaryEntry),
      getEntryHeader rh leh lw e =
        if entryHeaderSpec lw e = rh ∨ entryHeaderSpec lw e = leh then ""
        else entryHeaderSpec lw e) ∧
    (∀ (step sp : Nat) (rh leh lw : String) (e1 e2 : DictionaryEntry),
      getEntryHeader rh leh lw e1 ≠ "" →
      entryHeaderSpec e1.Word e2 = getEntryHeader rh leh lw e1 →
      printEntriesLoop step sp rh [e1, e2] leh lw =
        (writeNewLine sp ++ writeNewLine sp ++
            writeStringLine sp (getEntryHeader rh leh lw e1) ++
          printDictionaryEntry step (sp + step) e1 ++
          printDictionaryEntry step (sp + step) e2,
          getEntryHeader rh leh lw e1, e2.Word)) := by
  constructor
  · intro rh leh lw e
    rfl
  · intro step sp rh leh lw e1 e2 h1 h2
    have heq2 : getEntryHeader rh (getEntryHeader rh leh lw e1) e1.Word e2 = "" := by
      show (if entryHeaderSpec e1.Word e2 = rh ∨
              entryHeaderSpec e1.Word e2 = getEntryHeader rh leh lw e1 then ""
            else entryHeaderSpec e1.Word e2) = ""
      exact if_pos (Or.inr h2)
    simp only [printEntriesLoop]
    simp [h1, heq2]

/-- **C4 (witness).** Two consecutive identical entries (word `cat`,
pronunciation `kat`) under result header `x`: the first prints the header
`cat  /kat/`, the second is suppressed. -/
theorem getEntryHeader_spec_witness :
    printEntriesLoop 2 2 "x"
        [⟨"cat", "", ["kat"], [], [], [], []⟩,
          ⟨"cat", "", ["kat"], [], [], [], []⟩] "" "" =
      (writeNewLine 2 ++ writeNewLine 2 ++ writeStringLine 2 "cat  /kat/" ++
        printDictionaryEntry 2 4 ⟨"cat", "", ["kat"], [], [], [], []⟩ ++
        printDictionaryEntry 2 4 ⟨"cat", "", ["kat"], [], [], [], []⟩,
        "cat  /kat/", "cat") := by
  have h := getEntryHeader_spec.2 2 2 "x" "" ""
    ⟨"cat", "", ["kat"], [], [], [], []⟩ ⟨"cat", "", ["kat"], [], [], [], []⟩
    (by decide) (by rfl)
  exact h

/-- **C5.** Sub-sense example truncation: rendering an entry whose one sense
has definition `d` and examples `exs` and whose one sub-sense has definition
`d'` and examples `exs'` prints *every* element of `exs` (each on its own
quoted line under the sense's definition-prefix indentation) but only the
*first* element of `exs'` (`exs'.take 1`), regardless of how many sub-sense
examples exist. -/
theorem printDictionaryEntry_subsense_truncation
    (step sp : Nat) (w d d' : String) (exs exs' : List String) :
    printDictionaryEntry step sp
        ⟨w, "", [], [Sense.mk [d] exs [] [Sense.mk [d'] exs' [] []]], [], [], []⟩ =
      writeStringLine sp ("1. " ++ d) ++
        exs.flatMap (fun ex => writeStringLine (sp + 3) (goQuote ex)) ++
        writeStringLine (sp + step) (" - " ++ d') ++
        (exs'.take 1).flatMap
          (fun ex => writeStringLine (sp + step + 3) (goQuote ex)) := by
  have hp : (toString (0 + 1 : Nat) ++ ". ") = "1. " := rfl
  have hl : ("1. ").length = 3 := rfl
  cases exs' with
  | nil =>
      simp [printDictionaryEntry, printSenses, printSense, Sense.Definitions,
        Sense.Examples, Sense.Notes, Sense.SubSenses, printEtymologies,
        printThesaurusValues, hp, hl]
  | cons a as =>
      simp [printDictionaryEntry, printSenses, printSense, Sense.Definitions,
        Sense.Examples, Sense.Notes, Sense.SubSenses, printEtymologies,
        printThesaurusValues, hp, hl]

/-- Helper for C10: the results loop panics (`none`) whenever some result has
no entries, whatever the threaded `lastWord` is. -/
theorem printResultsLoop_none_of_empty_entries (step sp : Nat)
    (results : List DictionaryResult) (lw : String)
    (h : ∃ r ∈ results, r.Entries = []) :
    printResultsLoop step sp results lw = none := by
  induction results generalizing lw with
  | nil => obtain ⟨r, hr, _⟩ := h; exact absurd hr (List.not_mem_nil r)
  | cons r rs ih =>
      obtain ⟨x, hx, hxe⟩ := h
      rcases List.mem_cons.mp hx with hEq | hmem
      · subst hEq
        simp only [printResultsLoop, getHeader, hxe]
      · cases hr : r.Entries with
        | nil => simp only [printResultsLoop, getHeader, hr]
        | cons e es =>
            simp only [printResultsLoop, getHeader, hr]
            rw [ih _ ⟨x, hmem, hxe⟩]

/-- Helper for C10: the results loop succeeds whenever every result has at
least one entry. -/
theorem printResultsLoop_isSome_of_entries (step sp : Nat)
    (results : List DictionaryResult) (lw : String)
    (h : ∀ r ∈ results, r.Entries ≠ []) :
    (printResultsLoop step sp results lw).isSome = true := by
  induction results generalizing lw with
  | nil => rfl
  | cons r rs ih =>
      cases hr : r.Entries with
      | nil => exact absurd hr (h r (List.mem_cons_self r rs))
      | cons e es =>
          simp only [printResultsLoop, getHeader, hr]
          have hrest := ih (printEntriesLoop step sp
            (if e.Pronunciations.length > 0 then
              e.Word ++ "  " ++ getPronunciationsText e.Pronunciations
            else e.Word) (e :: es) "" lw).2.2
            (fun x hx => h x (List.mem_cons_of_mem r hx))
          cases hloop : printResultsLoop step sp rs (printEntriesLoop step sp
            (if e.Pronunciations.length > 0 then
              e.Word ++ "  " ++ getPronunciationsText e.Pronunciations
            else e.Word) (e :: es) "" lw).2.2 with
          | none => rw [hloop] at hrest; exact absurd hrest (by simp)
          | some out => simp

/-- **C10.** The renderer performs no per-result emptiness check: rendering a
results list that contains a `DictionaryResult` with an empty `Entries` slice
aborts with the out-of-range panic of `getHeader`'s `Entries[0]` access
(modelled as `none`); conversely, when every result has at least one entry the
abort is unreachable and rendering produces output. -/
theorem printDictionaryResults_panic_spec :
    (∀ (step : Nat) (results : List DictionaryResult),
      (∃ r ∈ results, r.Entries = []) →
      printDictionaryResults step results = none) ∧
    (∀ (step : Nat) (results : List DictionaryResult),
      (∀ r ∈ results, r.Entries ≠ []) →
      (printDictionaryResults step results).isSome = true) := by
  constructor
  · intro step results h
    exact printResultsLoop_none_of_empty_entries step step results "" h
  · intro step results h
    exact printResultsLoop_isSome_of_entries step step results "" h

/-- **C10 (witness).** A one-result list whose result has no entries panics;
a one-result list with one entry renders successfully. -/
theorem printDictionaryResults_panic_spec_witness :
    printDictionaryResults 2 [⟨"en", "test", []⟩] = none ∧
      (printDictionaryResults 2
        [⟨"en", "test", [⟨"test", "noun", [], [], [], [], []⟩]⟩]).isSome = true := by
  constructor
  · exact printDictionaryResults_panic_spec.1 2 [⟨"en", "test", []⟩]
      ⟨⟨"en", "test", []⟩, List.mem_singleton.mpr rfl, rfl⟩
  · exact printDictionaryResults_panic_spec.2 2
      [⟨"en", "test", [⟨"test", "noun", [], [], [], [], []⟩]⟩]
      (by intro r hr; fin_cases hr; simp)

/-! ### Oxford normalizer theorems (claim C6) -/

/-- **C6 (counterexample).** Oxford sense content nested deeper than two
levels is *not* absorbed into the first sub-level: converting a lexical entry
whose sense `d1` has subsense `d2` which itself has sub-subsense `d3`
produces `[{d1, subsenses [{d2, no subsenses}]}]` — the definition `d3`
appears nowhere in the converted entry (the two-level flattening of all
definition content is exactly `[d1, d2]`). -/
theorem oxToEntry_drops_deep_subsenses :
    (oxToEntry ⟨"w", "noun", [],
        [⟨[], [], [OxApiSense.mk ["d1"] [] []
          [OxApiSense.mk ["d2"] [] [] [OxApiSense.mk ["d3"] [] [] []]]]⟩]⟩).Senses =
      [Sense.mk ["d1"] [] [] [Sense.mk ["d2"] [] [] []]] ∧
    ((oxToEntry ⟨"w", "noun", [],
        [⟨[], [], [OxApiSense.mk ["d1"] [] []
          [OxApiSense.mk ["d2"] [] [] [OxApiSense.mk ["d3"] [] [] []]]]⟩]⟩).Senses.flatMap
        (fun s => s.Definitions ++ s.SubSenses.flatMap Sense.Definitions)) =
      ["d1", "d2"] :=
  ⟨rfl, rfl⟩

/-- **C6 (amended).** The Oxford normalizer maps each source sense of each
sub-entry to a top-level `Sense` and each of its *direct* subsenses to a
`SubSense` of that `Sense` (via `toSense`), capping the nesting at exactly two
levels; sense content nested deeper than two levels is discarded (never
converted), so every produced sub-sense has an empty `SubSenses` sequence. -/
theorem oxToEntry_flatten_spec (e : OxLexicalEntry) :
    (oxToEntry e).Senses = e.Entries.flatMap (fun sub => sub.Senses.map (fun s =>
        Sense.mk s.Definitions s.ExampleTexts s.NoteTexts
          (s.Subsenses.map oxToSense))) ∧
    (oxToEntry e).Senses.all
      (fun s => s.SubSenses.all (fun ss => ss.SubSenses.isEmpty)) = true := by
  refine ⟨rfl, ?_⟩
  rw [List.all_eq_true]
  intro s hs
  have hs' : s ∈ e.Entries.flatMap (fun sub => sub.Senses.map (fun s =>
      Sense.mk s.Definitions s.ExampleTexts s.NoteTexts
        (s.Subsenses.map oxToSense))) := hs
  rw [List.mem_flatMap] at hs'
  obtain ⟨sub, _, hmem⟩ := hs' 
  rw [List.mem_map] at hmem
  obtain ⟨src, _, rfl⟩ := hmem
  rw [List.all_eq_true]
  intro ss hss
  simp only [Sense.SubSenses] at hss
  rw [List.mem_map] at hss
  obtain ⟨x, _, rfl⟩ := hss
  cases x
  rfl

/-! ### Fold-equality theorems (claim C8) -/

/-- **C8.** `EqualFoldPlain(s, t)` compares `s` and `t` under Unicode
case-folding after first normalizing each through NFD decomposition, removal
of nonspacing marks, and NFC recomposition; on the concrete cases:
`EqualFoldPlain("résumé", "resume")` and `EqualFoldPlain("Résumé", "resume")`
are true and `EqualFoldPlain("test", "resume")` is false. -/
theorem equalFoldPlain_spec :
    (∀ s t : String, equalFoldPlain s t =
        goEqualFold (String.mk (nfc (removeMn (nfd s.data))))
          (String.mk (nfc (removeMn (nfd t.data))))) ∧
    equalFoldPlain "résumé" "resume" = true ∧
    equalFoldPlain "Résumé" "resume" = true ∧
    equalFoldPlain "test" "resume" = false :=
  ⟨fun _ _ => rfl, rfl, rfl, rfl⟩

/-! ### Webster definition-continuation theorems (claim C7) -/

/-- **C7.** Definition continuation in the Webster XML sense loop: whatever
the loop state, when the current sense's definitions end in `d`, a sense
divider element appends its text to that last definition with a `"; "`
separator (setting the continuation flag), and the defining-text element that
follows appends its formatted text to the *same* last definition with a `" "`
separator (clearing the flag) — no new definition list entry is created and
the sense's examples, notes and subsenses are untouched.  In particular a
primary definition `"a thing"` followed by a continuation-marked fragment
`"related thing"` yields a sense with exactly one definition string,
`"a thing; related thing"`. -/
theorem websterContinuation_spec :
    (∀ (st : WState) (loc : WLoc) (pre : List WApiSense)
        (ds : List String) (d : String) (exs ns : List String)
        (subs : List WApiSense) (s f : String) (dexs dns : List String),
      st.current = some loc →
      st.senses ≠ [] →
      st.currentList loc = pre ++ [WApiSense.mk (ds ++ [d]) exs ns subs] →
      wStep st (.divider s) =
        some { wSetCurrentList st loc
            (pre ++ [WApiSense.mk (ds ++ [d ++ "; " ++ s]) exs ns subs]) with
          isDefCont := true } ∧
      wStep { wSetCurrentList st loc
            (pre ++ [WApiSense.mk (ds ++ [d ++ "; " ++ s]) exs ns subs]) with
          isDefCont := true } (.defText f dexs dns) =
        some { wSetCurrentList st loc
            (pre ++ [WApiSense.mk (ds ++ [d ++ "; " ++ s ++ " " ++ f]) exs ns subs]) with
          isDefCont := false }) ∧
    (∃ stF, wRun [.defText "a thing" [] [], .divider "related thing"] = some stF ∧
      stF.senses = [WApiSense.mk ["a thing; related thing"] [] [] []]) := by
  constructor
  · intro st loc pre ds d exs ns subs s f dexs dns hcur hne hcl
    obtain ⟨sen, sub, si, cur, flag⟩ := st
    simp only [WState.current] at hcur
    subst hcur
    cases loc with
    | inSenses =>
        simp only [WState.currentList] at hcl
        subst hcl
        constructor
        · simp [wStep, wModifyCurrent, WState.currentList, wSetCurrentList,
            defsAppendLast, List.getLast?_concat, List.dropLast_concat]
        · simp [wStep, wModifyCurrent, WState.currentList, wSetCurrentList,
            defsAppendLast, List.getLast?_concat, List.dropLast_concat,
            List.append_assoc]
    | inSubsenses =>
        simp only [WState.currentList] at hcl
        subst hcl
        constructor
        · simp [wStep, wModifyCurrent, WState.currentList, wSetCurrentList,
            defsAppendLast, List.getLast?_concat, List.dropLast_concat]
        · simp only [WState.senses] at hne
          simp [wStep, wModifyCurrent, WState.currentList, wSetCurrentList,
            defsAppendLast, List.getLast?_concat, List.dropLast_concat,
            List.append_assoc, List.length_eq_zero, hne]
  · exact ⟨_, rfl, rfl⟩

/-- **C7 (witness).** The general continuation statement applied to the state
reached after decoding the primary definition `"a thing"`: the divider
`"related thing"` merges into the single definition, and a follow-up defining
text `"more"` extends that same single definition. -/
theorem websterContinuation_spec_witness :
    wStep ⟨[WApiSense.mk ["a thing"] [] [] []], [], 0, some .inSenses, false⟩
        (.divider "related thing") =
      some ⟨[WApiSense.mk ["a thing; related thing"] [] [] []], [], 0,
        some .inSenses, true⟩ ∧
    wStep ⟨[WApiSense.mk ["a thing; related thing"] [] [] []], [], 0,
        some .inSenses, true⟩ (.defText "more" [] []) =
      some ⟨[WApiSense.mk ["a thing; related thing more"] [] [] []], [], 0,
        some .inSenses, false⟩ := by
  have h := websterContinuation_spec.1
    ⟨[WApiSense.mk ["a thing"] [] [] []], [], 0, some .inSenses, false⟩
    .inSenses [] [] "a thing" [] [] [] "related thing" "more" [] []
    rfl (by simp) rfl
  exact h

/-! ### Webster token-cleanup theorems (claim C9) -/

/-- Helper: `takeWhile` passes over a block that wholly satisfies the
predicate. -/
theorem takeWhile_append_of_all {α : Type} (p : α → Bool) {l1 : List α}
    (l2 : List α) (h : ∀ c ∈ l1, p c = true) :
    (l1 ++ l2).takeWhile p = l1 ++ l2.takeWhile p := by
  induction l1 with
  | nil => simp
  | cons x xs ih =>
      simp only [List.cons_append, List.takeWhile_cons,
        h x (List.mem_cons_self x xs)]
      simp [ih (fun c hc => h c (List.mem_cons_of_mem x hc))]

/-- Helper: `dropWhile` skips a block that wholly satisfies the predicate. -/
theorem dropWhile_append_of_all {α : Type} (p : α → Bool) {l1 : List α}
    (l2 : List α) (h : ∀ c ∈ l1, p c = true) :
    (l1 ++ l2).dropWhile p = l2.dropWhile p := by
  induction l1 with
  | nil => simp
  | cons x xs ih =>
      simp only [List.cons_append, List.dropWhile_cons,
        h x (List.mem_cons_self x xs)]
      simpa using ih (fun c hc => h c (List.mem_cons_of_mem x hc))

/-- Helper: the scanner passes brace-free text through unchanged. -/
theorem clean_of_no_brace {l : List Char} (h : ∀ c ∈ l, c ≠ '{') :
    clean l = l := by
  induction l with
  | nil => simp [clean]
  | cons c cs ih =>
      rw [clean]
      rw [if_neg (h c (List.mem_cons_self c cs))]
      rw [ih (fun x hx => h x (List.mem_cons_of_mem c hx))]

/-- Helper: the scanner distributes over a brace-free prefix. -/
theorem clean_append_of_no_brace {pre : List Char} (l : List Char)
    (h : ∀ c ∈ pre, c ≠ '{') : clean (pre ++ l) = pre ++ clean l := by
  induction pre with
  | nil => simp
  | cons c cs ih =>
      simp only [List.cons_append]
      rw [clean]
      rw [if_neg (h c (List.mem_cons_self c cs))]
      rw [ih (fun x hx => h x (List.mem_cons_of_mem c hx))]

/-- Helper: `splitAtClose` on a body of close-brace/newline-free characters
followed by `'}' :: suf` finds that body and remainder. -/
theorem splitAtClose_of_inner {inner : List Char} (suf : List Char)
    (h : ∀ c ∈ inner, c ≠ '}' ∧ c ≠ '\n') :
    splitAtClose (inner ++ '}' :: suf) = some (inner, suf) := by
  have hall : ∀ c ∈ inner, (c != '}' && c != '\n') = true := by
    intro c hc
    obtain ⟨h1, h2⟩ := h c hc
    simp [h1, h2]
  unfold splitAtClose
  rw [dropWhile_append_of_all _ _ hall,
    takeWhile_append_of_all _ _ hall]
  simp [List.dropWhile_cons, List.takeWhile_cons]

/-- Helper: unfolding `clean` at a `{` whose match attempt succeeds. -/
theorem clean_brace_cons {rest : List Char} {pr : List Char × List Char}
    (hsp : splitAtClose rest = some pr) :
    clean ('{' :: rest) = tokenRepl pr.1 ++ clean pr.2 := by
  rw [clean]
  rw [if_pos rfl]
  split
  · rename_i pr' hpr'
    rw [hsp] at hpr'
    injection hpr' with h2
    rw [h2]
  · rename_i hnone
    rw [hsp] at hnone
    exact absurd hnone (by simp)

/-- **C9.** The Webster token cleanup: brace-free text is left unchanged; a
`{tag|text|...}` token (tag and text free of pipes, closing braces and
newlines) is replaced by just its `text` group — the content between the
first and second pipe; a `{tag}` token with no pipe group is removed
entirely; and the replacement acts on each token in place, leaving the
surrounding non-token text unchanged. -/
theorem cleanTextOfTokens_spec :
    (∀ s : String, (∀ c ∈ s.data, c ≠ '{') → cleanTextOfTokens s = s) ∧
    (∀ tag text rest suf : List Char,
      (∀ c ∈ tag, c ≠ '|' ∧ c ≠ '}' ∧ c ≠ '\n') →
      (∀ c ∈ text, c ≠ '|' ∧ c ≠ '}' ∧ c ≠ '\n') →
      (∀ c ∈ rest, c ≠ '}' ∧ c ≠ '\n') →
      clean (('{' :: (tag ++ ('|' :: (text ++ '|' :: rest)))) ++ '}' :: suf) =
        text ++ clean suf) ∧
    (∀ tag suf : List Char,
      (∀ c ∈ tag, c ≠ '|' ∧ c ≠ '}' ∧ c ≠ '\n') →
      clean (('{' :: tag) ++ '}' :: suf) = clean suf) ∧
    (∀ (pre l : List Char), (∀ c ∈ pre, c ≠ '{') →
      clean (pre ++ l) = pre ++ clean l) := by
  refine ⟨?_, ?_, ?_, fun pre l h => clean_append_of_no_brace l h⟩
  · intro s h
    show String.mk (clean s.data) = s
    rw [clean_of_no_brace h]
  · intro tag text rest suf htag htext hrest
    have hinner : ∀ c ∈ tag ++ ('|' :: (text ++ '|' :: rest)),
        c ≠ '}' ∧ c ≠ '\n' := by
      intro c hc
      simp only [List.mem_append, List.mem_cons] at hc
      rcases hc with hc | rfl | hc | rfl | hc
      · exact (htag c hc).2
      · exact ⟨by decide, by decide⟩
      · exact (htext c hc).2
      · exact ⟨by decide, by decide⟩
      · exact hrest c hc
    have htagp : ∀ c ∈ tag, (c != '|') = true := by
      intro c hc; simp [(htag c hc).1]
    have htextp : ∀ c ∈ text, (c != '|') = true := by
      intro c hc; simp [(htext c hc).1]
    have hdrop : (tag ++ ('|' :: (text ++ '|' :: rest))).dropWhile
        (fun c => c != '|') = '|' :: (text ++ '|' :: rest) := by
      rw [dropWhile_append_of_all _ _ htagp]
      simp [List.dropWhile_cons]
    have htake : (text ++ '|' :: rest).takeWhile (fun c => c != '|') = text := by
      rw [takeWhile_append_of_all _ _ htextp]
      simp [List.takeWhile_cons]
    have hrepl : tokenRepl (tag ++ ('|' :: (text ++ '|' :: rest))) = text := by
      simp only [tokenRepl, hdrop]
      simp [htake]
    rw [List.cons_append]
    rw [clean_brace_cons (splitAtClose_of_inner suf hinner)]
    rw [hrepl]
  · intro tag suf htag
    have hinner : ∀ c ∈ tag, c ≠ '}' ∧ c ≠ '\n' := fun c hc => (htag c hc).2
    have htagp : ∀ c ∈ tag, (c != '|') = true := by
      intro c hc; simp [(htag c hc).1]
    have hrepl : tokenRepl tag = [] := by
      simp only [tokenRepl]
      rw [List.dropWhile_eq_nil_iff.mpr (fun c hc => htagp c hc)]
      rfl
    rw [List.cons_append]
    rw [clean_brace_cons (splitAtClose_of_inner suf hinner)]
    rw [hrepl]
    rfl

/-- **C9 (witness).** Concrete instances: `"abc"` has no tokens and is
unchanged; `{bc|it|x}` collapses to `it`; `{d}` is removed; a brace-free
prefix passes through. -/
theorem cleanTextOfTokens_spec_witness :
    cleanTextOfTokens "abc" = "abc" ∧
    clean (('{' :: ("bc".data ++ ('|' :: ("it".data ++ '|' :: "x".data)))) ++
        '}' :: " b".data) = "it".data ++ clean " b".data ∧
    clean (('{' :: "d".data) ++ '}' :: " c".data) = clean " c".data ∧
    clean ("a ".data ++ "rest".data) = "a ".data ++ clean "rest".data := by
  refine ⟨?_, ?_, ?_, ?_⟩
  · exact cleanTextOfTokens_spec.1 "abc" (by decide)
  · exact cleanTextOfTokens_spec.2.1 "bc".data "it".data "x".data " b".data
      (by decide) (by decide) (by decide)
  · exact cleanTextOfTokens_spec.2.2.1 "d".data " c".data (by decide)
  · exact cleanTextOfTokens_spec.2.2.2 "a ".data "rest".data (by decide)
